import Mathlib

/-!
Shallow embedding of the surveyscout assignment pipeline:
cost matrices, the constrained assignment optimizer and its relaxation
search (`optimization/tasks/models.py`), the assignment-matrix → table
postprocessing (`surveyscout/tasks/postprocessing.py`), the flow-level
`max_distance` flooring (`surveyscout/flows/min_distance_flow.py`,
`surveyscout/flows/routed_min_distance_flow.py`), visit-order re-anchoring
(`surveyscout/tasks/rank.py`), the Google distance-matrix request tiling
(`surveyscout/tasks/compute_cost/google_distance_matrix.py`), the OSRM
row extraction (`surveyscout/tasks/compute_cost/osrm.py`) and
`LocationDataset.create_subset` (`surveyscout/utils.py`).

Numeric values (numpy floats) are modelled as rationals; matrices as
lists of rows; the external MIP solver, consumed by the code as a
capability ("solve this set of linear constraints over binary
variables"), is a parameter that may only return assignments satisfying
the constraint set the code posts.
-/

namespace SurveyScout

/-- Entry `m[i][j]` of a row-major matrix, defaulting to `0` out of range
(mirroring that the code only ever indexes in range). -/
def entry (m : List (List ℚ)) (i j : ℕ) : ℚ :=
  (m.getD i []).getD j 0

/-- Number of columns, `cost_matrix.shape[1]` of a rectangular numpy array. -/
def nEnum (m : List (List ℚ)) : ℕ :=
  (m.headD []).length

/-- `x[i, :].sum()` over the first `nE` columns. -/
def rowSumIdx (m : List (List ℚ)) (i nE : ℕ) : ℚ :=
  ((List.range nE).map fun j => entry m i j).sum

/-- `x[:, j].sum()` over the first `nT` rows. -/
def colSumIdx (m : List (List ℚ)) (j nT : ℕ) : ℚ :=
  ((List.range nT).map fun i => entry m i j).sum

/-- `sum(cost_matrix[i, j] * x[i, j] for i in range(n_target))`. -/
def assignedCostSum (cost x : List (List ℚ)) (j nT : ℕ) : ℚ :=
  ((List.range nT).map fun i => entry cost i j * entry x i j).sum

/-- The constraint set posted to the solver by `min_target_optimization_model`
(`optimization/tasks/models.py`, lines 56-82): binary decision variables
(`solver.BoolVar`), each target's row summing to exactly 1, each
enumerator's column sum within `[min_target, max_target]`, each
enumerator's assigned-cost total at most `max_total_cost`, and the
per-cell budget `cost_matrix[i, j] * x[i, j] <= max_cost`. -/
def modelFeasible (cost : List (List ℚ)) (min_target max_target max_cost max_total_cost : ℚ)
    (x : List (List ℚ)) : Bool :=
  let nT := cost.length
  let nE := nEnum cost
  ((List.range nT).all fun i => (List.range nE).all fun j =>
      decide (entry x i j = 0) || decide (entry x i j = 1)) &&
  ((List.range nT).all fun i => decide (rowSumIdx x i nE = 1)) &&
  ((List.range nE).all fun j => decide (min_target ≤ colSumIdx x j nT)) &&
  ((List.range nE).all fun j => decide (colSumIdx x j nT ≤ max_target)) &&
  ((List.range nE).all fun j => decide (assignedCostSum cost x j nT ≤ max_total_cost)) &&
  ((List.range nT).all fun i => (List.range nE).all fun j =>
      decide (entry cost i j * entry x i j ≤ max_cost))

/-- The external MIP-solver capability: given a constraint set over binary
matrices, return an optimal assignment or `none` (infeasible / no optimum). -/
def SolverCap : Type :=
  (List (List ℚ) → Bool) → Option (List (List ℚ))

/-- Soundness of a solver capability: a returned assignment satisfies the
posted constraint set (what `status == pywraplp.Solver.OPTIMAL` certifies). -/
def SolverSound (solve : SolverCap) : Prop :=
  ∀ P x, solve P = some x → P x = true

/-- `min_target_optimization_model` (`optimization/tasks/models.py`,
lines 53-99): formulate the constraint set, hand it to the solver, and
return the solution matrix, or `None` when the solve is not optimal. -/
def min_target_optimization_model (solve : SolverCap) (cost : List (List ℚ))
    (min_target max_target max_cost max_total_cost : ℚ) : Option (List (List ℚ)) :=
  solve (modelFeasible cost min_target max_target max_cost max_total_cost)

/-- The four constraint parameters (`min_target`, `max_target`, `max_cost`,
`max_total_cost`). -/
structure OptimParams where
  min_target : ℚ
  max_target : ℚ
  max_cost : ℚ
  max_total_cost : ℚ
deriving DecidableEq

/-- One loosening step of the relaxation search
(`optimization/tasks/models.py`, lines 170-174). -/
def relaxParams (param_increment : ℚ) (p : OptimParams) : OptimParams :=
  { min_target := p.min_target * (1 - param_increment / 100)
    max_target := p.max_target * (1 + param_increment / 100)
    max_cost := p.max_cost * (1 + param_increment / 100)
    max_total_cost := p.max_total_cost * (1 + param_increment / 100) }

/-- `recursive_min_target_optimization` (`optimization/tasks/models.py`,
lines 102-177), instrumented with the list of parameter sets attempted.
The recursive call passes the loosened parameters but omits
`param_increment`, which therefore resets to its default `5`.
`fuel` bounds the recursion depth (Python's call stack); the outer `none`
means the recursion was still running when the bound was reached, while
`some (none, none)` is the code's explicit failure result `(None, {})`. -/
def recursive_min_target_optimization_trace (solve : SolverCap) (cost : List (List ℚ))
    (p : OptimParams) (param_increment : ℚ) (fuel : ℕ) :
    Option (Option (List (List ℚ)) × Option OptimParams) × List OptimParams :=
  match fuel with
  | 0 => (none, [])
  | fuel + 1 =>
    match min_target_optimization_model solve cost
        p.min_target p.max_target p.max_cost p.max_total_cost with
    | some result => (some (some result, some p), [p])
    | none =>
      if 0 < p.min_target then
        let rec' := recursive_min_target_optimization_trace solve cost
          (relaxParams param_increment p) 5 fuel
        (rec'.1, p :: rec'.2)
      else
        (some (none, none), [p])

/-- The result of `recursive_min_target_optimization`, dropping the
instrumentation trace. -/
def recursive_min_target_optimization (solve : SolverCap) (cost : List (List ℚ))
    (p : OptimParams) (param_increment : ℚ) (fuel : ℕ) :
    Option (Option (List (List ℚ)) × Option OptimParams) :=
  (recursive_min_target_optimization_trace solve cost p param_increment fuel).1

/-- Parameter set used by the `k`-th attempt of the relaxation search:
the first retry is loosened by the caller's `param_increment`, every
later retry by the default `5` (the recursive call does not forward
`param_increment`). -/
def attemptParams (param_increment : ℚ) (p : OptimParams) : ℕ → OptimParams
  | 0 => p
  | k + 1 => relaxParams (if k = 0 then param_increment else 5) (attemptParams param_increment p k)

/-- A solver capability for which every formulation is infeasible
(e.g. what SCIP reports on 1 target, 2 enumerators, `min_target ≥ 1`:
the single target can be assigned to only one enumerator, so some
column sum is `0 < min_target` at every positive `min_target`). -/
def solveNone : SolverCap := fun _ => none

/-- All four constraint parameters are non-negative. -/
def paramsNonneg (p : OptimParams) : Prop :=
  0 ≤ p.min_target ∧ 0 ≤ p.max_target ∧ 0 ≤ p.max_cost ∧ 0 ≤ p.max_total_cost

/-- One row of the sparse assignment table (`target_id`, `enum_id`, `cost`). -/
structure AssignRow where
  target_id : ℤ
  enum_id : ℤ
  cost : ℚ
deriving DecidableEq

/-- Elementwise product `assignment_matrix * enum_target_cost_matrix.values`. -/
def mulElem (a b : List (List ℚ)) : List (List ℚ) :=
  List.zipWith (List.zipWith (· * ·)) a b

/-- `pd.DataFrame(M, index=target_ids, columns=enum_ids).stack()` followed by
the `stacked[stacked > 0]` filter and `reset_index`: one `(target, enum, value)`
row per matrix cell, row-major, keeping the strictly positive cells. -/
def stackPositive (m : List (List ℚ)) (target_ids enum_ids : List ℤ) : List AssignRow :=
  ((List.range target_ids.length).flatMap fun i =>
    (List.range enum_ids.length).map fun j =>
      (⟨target_ids.getD i 0, enum_ids.getD j 0, entry m i j⟩ : AssignRow)).filter
    fun r => decide (0 < r.cost)

/-- `convert_assignment_matrix_to_table`
(`surveyscout/tasks/postprocessing.py`, lines 48-68): multiply the
assignment matrix elementwise by the cost matrix (when one is given),
stack into `(target_id, enum_id, cost)` rows and keep the cells whose
stacked value is `> 0`. -/
def convert_assignment_matrix_to_table (assignment_matrix : List (List ℚ))
    (enum_ids target_ids : List ℤ) (enum_target_cost_matrix : Option (List (List ℚ))) :
    List AssignRow :=
  let assigned_cost_matrix :=
    match enum_target_cost_matrix with
    | some c => mulElem assignment_matrix c
    | none => assignment_matrix
  stackPositive assigned_cost_matrix target_ids enum_ids

/-- Rebuild a dense target×enumerator 0/1 matrix from the assignment table:
cell `(target_id, enum_id)` is `1` exactly when the table has a row for
that pair. -/
def rebuild_assignment_matrix (table : List AssignRow) (target_ids enum_ids : List ℤ) :
    List (List ℚ) :=
  target_ids.map fun tid => enum_ids.map fun eid =>
    if table.any fun r => decide (r.target_id = tid) && decide (r.enum_id = eid) then 1 else 0

/-- Minimum of a list, `pandas`-style (folding `min` from the head). -/
def minD : List ℚ → ℚ
  | [] => 0
  | a :: t => t.foldl min a

/-- Maximum of a list, `pandas`-style (folding `max` from the head). -/
def maxD : List ℚ → ℚ
  | [] => 0
  | a :: t => t.foldl max a

/-- `matrix_df.min(axis=1).max()` (`surveyscout/flows/min_distance_flow.py`,
line 184): each target's minimum cost over all enumerators, maximized
over targets. -/
def min_possible_max_distance (matrix : List (List ℚ)) : ℚ :=
  maxD (matrix.map minD)

/-- The `max_distance` actually passed to the optimization by
`recursive_min_distance_flow` (`surveyscout/flows/min_distance_flow.py`,
lines 184-187) and `recursive_routed_min_distance_flow`
(`surveyscout/flows/routed_min_distance_flow.py`, lines 142-145):
a supplied value at or below `min_possible_max_distance` is replaced by
it, anything above passes through unchanged. -/
def recursive_flow_max_distance (matrix : List (List ℚ)) (max_distance : ℚ) : ℚ :=
  if max_distance ≤ min_possible_max_distance matrix then min_possible_max_distance matrix
  else max_distance

/-- One row of a per-enumerator assignment group in `rank.py`:
assignment cost, the OSRM-trip visit rank and the leg distance column. -/
structure VisitRow where
  target_id : ℤ
  cost : ℚ
  target_visit_order : ℤ
  distance_to_next_in_km : ℚ
deriving DecidableEq

/-- The `start_rank` picked by `_rerank` (`surveyscout/tasks/rank.py`,
lines 145-147): `df.cost.idxmin()` finds the first row of minimal cost,
`closest_target_id` is its target id, and `start_rank` is the visit order
of the first row carrying that target id (`.iloc[0]`). -/
def rerank_start_rank (df : List VisitRow) : ℤ :=
  let closest_target_id :=
    ((df.find? fun r => decide (r.cost = minD (df.map fun s => s.cost))).getD
      ⟨0, 0, 0, 0⟩).target_id
  ((df.find? fun r => decide (r.target_id = closest_target_id)).getD
    ⟨0, 0, 0, 0⟩).target_visit_order

/-- `_rerank` (`surveyscout/tasks/rank.py`, lines 142-154): cyclically
shift every rank by `(rank - start_rank) % len(df)` (Python `%`, i.e.
`Int.emod`, non-negative for a positive modulus) and sort by the new
rank. -/
def rerank (df : List VisitRow) : List VisitRow :=
  let cycled := df.map fun r =>
    { r with target_visit_order :=
        (r.target_visit_order - rerank_start_rank df) % (df.length : ℤ) }
  List.insertionSort (fun r s => r.target_visit_order ≤ s.target_visit_order) cycled

/-- The integer list `[0, 1, ..., k-1]` of waypoint ranks. -/
def intRange (k : ℕ) : List ℤ :=
  (List.range k).map fun n : ℕ => (n : ℤ)

/-- `_get_visit_order_for_enum` (`surveyscout/tasks/rank.py`, lines 120-139):
store the waypoint index of each target and the leg distance (meters,
normalized to kilometers) into the group's rows, then re-anchor with
`_rerank`.  The OSRM trip response is modelled by its extracted
`waypoint_index` list and `legs` distance list. -/
def get_visit_order_for_enum (df : List VisitRow) (waypoint_index : List ℤ)
    (leg_distances : List ℚ) : List VisitRow :=
  rerank (List.zipWith
    (fun r od => { r with target_visit_order := od.1, distance_to_next_in_km := od.2 / 1000 })
    df (waypoint_index.zip leg_distances))

/-- Google Distance Matrix request limits
(`surveyscout/tasks/compute_cost/google_distance_matrix.py`, lines 21-23). -/
def MAX_DEST : ℕ := 25

/-- Maximum origin×destination elements per request. -/
def MAX_ELEMENTS_PER_REQUEST : ℕ := 100

/-- Maximum origins per request, `MAX_ELEMENTS_PER_REQUEST // MAX_DEST`. -/
def MAX_ORIG : ℕ := MAX_ELEMENTS_PER_REQUEST / MAX_DEST

/-- The numpy slice `arr[a : a + size]` of `np.arange(n)`. -/
def indexSlice (n a size : ℕ) : List ℕ :=
  ((List.range n).drop a).take size

/-- `_generate_google_enum_target_request_pairs`
(`surveyscout/tasks/compute_cost/google_distance_matrix.py`,
lines 244-274): chunk the origin indices into groups of `MAX_ORIG`, the
destination indices into groups of `MAX_DEST`, and emit the
`itertools.product` of the chunk lists (origin-major). -/
def generate_google_enum_target_request_idx (n_orig n_dest : ℕ) :
    List (List ℕ × List ℕ) :=
  let n_orig_groups := (n_orig + (MAX_ORIG - 1)) / MAX_ORIG
  let n_dest_groups := (n_dest + (MAX_DEST - 1)) / MAX_DEST
  let origChunks := (List.range n_orig_groups).map fun i => indexSlice n_orig (i * MAX_ORIG) MAX_ORIG
  let destChunks := (List.range n_dest_groups).map fun j => indexSlice n_dest (j * MAX_DEST) MAX_DEST
  origChunks.flatMap fun oc => destChunks.map fun dc => (oc, dc)

/-- `_get_unique_target_enum_row_osrm` / its async twin
(`surveyscout/tasks/compute_cost/osrm.py`, lines 67-82 and 141-153):
a response with a `"distances"` field yields its first distance row with
the leading self-distance dropped and meters divided by 1000; a response
without one yields the empty row.  The response is modelled as
`Option` of the `"distances"` value (a table response produced with
`sources=0` always carries at least the one source row, which `headD`
reads totally). -/
def get_unique_target_enum_row_osrm (response : Option (List (List ℚ))) : List ℚ :=
  match response with
  | some distances => ((distances.headD []).drop 1).map fun d => d / 1000
  | none => []

/-- `_get_enum_target_matrix_osrm` / `_gather_matrix`
(`surveyscout/tasks/compute_cost/osrm.py`, lines 59-64 and 128-138):
one row per target, each from that target's own response, assembled in
target order (`asyncio.gather` preserves the task order). -/
def get_enum_target_matrix_osrm (responses : List (Option (List (List ℚ)))) :
    List (List ℚ) :=
  responses.map get_unique_target_enum_row_osrm

/-- One row of a `LocationDataset` dataframe: identifier and coordinates. -/
structure LocRow where
  id : ℤ
  gps_lat : ℚ
  gps_lng : ℚ
deriving DecidableEq

/-- `LocationDataset.create_subset` (`surveyscout/utils.py`, lines 58-65):
`self.df[self.df[self.id_column].isin(subset_ids)]` — keep, in dataframe
order, the rows whose id occurs in `subset_ids`. -/
def create_subset (df : List LocRow) (subset_ids : List ℤ) : List LocRow :=
  df.filter fun r => decide (r.id ∈ subset_ids)

/-- A concrete sound solver capability used to exercise the optimizer
model: it proposes the single-cell assignment `[[1]]` and returns it
exactly when the posted constraint set accepts it. -/
def solveSingleton : SolverCap := fun P =>
  if P [[1]] then some [[1]] else none

/-! ## Theorems -/

/-- Every assignment the singleton solver returns passes the posted check. -/
theorem solveSingleton_sound : SolverSound solveSingleton := by
  intro P x h
  unfold solveSingleton at h
  split at h
  · next hP =>
    injection h with h
    rw [← h]
    exact hP
  · exact absurd h (by simp)

/-- C1: a non-`None` result of `min_target_optimization_model` satisfies all
four constraints — unit row sums, column sums within
`[min_target, max_target]`, per-assigned-cell cost at most `max_cost`, and
per-enumerator total assigned cost at most `max_total_cost`. -/
theorem min_target_optimization_model_constraints (solve : SolverCap)
    (hs : SolverSound solve) (cost x : List (List ℚ))
    (min_target max_target max_cost max_total_cost : ℚ)
    (h : min_target_optimization_model solve cost
      min_target max_target max_cost max_total_cost = some x) :
    (∀ i < cost.length, rowSumIdx x i (nEnum cost) = 1) ∧
    (∀ j < nEnum cost,
      min_target ≤ colSumIdx x j cost.length ∧ colSumIdx x j cost.length ≤ max_target) ∧
    (∀ i < cost.length, ∀ j < nEnum cost, entry x i j = 1 → entry cost i j ≤ max_cost) ∧
    (∀ j < nEnum cost, assignedCostSum cost x j cost.length ≤ max_total_cost) := by
  have hP := hs _ _ h
  simp only [modelFeasible, Bool.and_eq_true, List.all_eq_true, List.mem_range,
    decide_eq_true_eq, Bool.or_eq_true] at hP
  obtain ⟨⟨⟨⟨⟨-, hrow⟩, hmin⟩, hmax⟩, htot⟩, hcell⟩ := hP
  refine ⟨fun i hi => hrow i hi, fun j hj => ⟨hmin j hj, hmax j hj⟩, ?_, fun j hj => htot j hj⟩
  intro i hi j hj hx1
  have hc := hcell i hi j hj
  rwa [hx1, mul_one] at hc

/-- C1 witness: the singleton solver is sound, solves the 1×1 instance with
cost matrix `[[0]]` and parameters `(0, 1, 0, 0)`, and the returned
assignment `[[1]]` satisfies the four constraint families. -/
theorem min_target_optimization_model_constraints_witness :
    min_target_optimization_model solveSingleton [[0]] 0 1 0 0 = some [[1]] ∧
    ((∀ i < ([[(0 : ℚ)]] : List (List ℚ)).length,
        rowSumIdx [[(1 : ℚ)]] i (nEnum [[(0 : ℚ)]]) = 1) ∧
     (∀ j < nEnum [[(0 : ℚ)]],
        (0 : ℚ) ≤ colSumIdx [[(1 : ℚ)]] j ([[(0 : ℚ)]] : List (List ℚ)).length ∧
        colSumIdx [[(1 : ℚ)]] j ([[(0 : ℚ)]] : List (List ℚ)).length ≤ 1) ∧
     (∀ i < ([[(0 : ℚ)]] : List (List ℚ)).length, ∀ j < nEnum [[(0 : ℚ)]],
        entry [[(1 : ℚ)]] i j = 1 → entry [[(0 : ℚ)]] i j ≤ 0) ∧
     (∀ j < nEnum [[(0 : ℚ)]],
        assignedCostSum [[(0 : ℚ)]] [[(1 : ℚ)]] j ([[(0 : ℚ)]] : List (List ℚ)).length ≤ 0)) := by
  have hfeas : modelFeasible [[0]] 0 1 0 0 [[1]] = true := by
    norm_num [modelFeasible, nEnum, entry, rowSumIdx, colSumIdx, assignedCostSum,
      List.range_succ]
  have hsolve : min_target_optimization_model solveSingleton [[0]] 0 1 0 0 = some [[1]] := by
    simp [min_target_optimization_model, solveSingleton, hfeas]
  exact ⟨hsolve,
    min_target_optimization_model_constraints solveSingleton solveSingleton_sound
      [[0]] [[1]] 0 1 0 0 hsolve⟩

/-- C5: in the recursive flows the supplied `max_distance` is floored at
`min_possible_max_distance` — replaced by the floor when at or below it,
passed through unchanged when above it; no error in either case. -/
theorem recursive_flow_max_distance_floor (matrix : List (List ℚ)) (max_distance : ℚ) :
    (max_distance ≤ min_possible_max_distance matrix →
      recursive_flow_max_distance matrix max_distance = min_possible_max_distance matrix) ∧
    (min_possible_max_distance matrix < max_distance →
      recursive_flow_max_distance matrix max_distance = max_distance) := by
  constructor
  · intro h
    simp [recursive_flow_max_distance, h]
  · intro h
    simp [recursive_flow_max_distance, not_le.2 h]

/-- C5 witness: on the 2×2 cost matrix `[[1,2],[3,4]]` the floor is `3`;
a supplied `max_distance = 2` is raised to `3`, a supplied `5` is kept. -/
theorem recursive_flow_max_distance_floor_witness :
    ((2 : ℚ) ≤ min_possible_max_distance [[1, 2], [3, 4]] ∧
      recursive_flow_max_distance [[1, 2], [3, 4]] 2 = min_possible_max_distance [[1, 2], [3, 4]]) ∧
    (min_possible_max_distance [[1, 2], [3, 4]] < (5 : ℚ) ∧
      recursive_flow_max_distance [[1, 2], [3, 4]] 5 = 5) :=
  ⟨⟨by decide, (recursive_flow_max_distance_floor [[1, 2], [3, 4]] 2).1 (by decide)⟩,
   ⟨by decide, (recursive_flow_max_distance_floor [[1, 2], [3, 4]] 5).2 (by decide)⟩⟩

/-- C9: the OSRM matrix has one row per target; a target whose response
lacks a `"distances"` field gets the empty row while every other row is
still computed, as the response's first distance row without its leading
self-distance entry, divided by 1000. -/
theorem osrm_matrix_rows (responses : List (Option (List (List ℚ)))) :
    (get_enum_target_matrix_osrm responses).length = responses.length ∧
    ∀ i < responses.length,
      (responses.getD i none = none →
        (get_enum_target_matrix_osrm responses).getD i [] = []) ∧
      ∀ d, responses.getD i none = some d →
        (get_enum_target_matrix_osrm responses).getD i [] =
          ((d.headD []).drop 1).map fun x => x / 1000 := by
  have hmap : ∀ i, (get_enum_target_matrix_osrm responses).getD i [] =
      get_unique_target_enum_row_osrm (responses.getD i none) := by
    intro i
    exact List.getD_map (l := responses) (d := none) get_unique_target_enum_row_osrm
  refine ⟨List.length_map _ _, fun i _ => ⟨fun hnone => ?_, fun d hd => ?_⟩⟩
  · rw [hmap i, hnone]
    rfl
  · rw [hmap i, hd]
    rfl

/-- C9 witness: with a first target answering distances `[0, 1500, 2500]`
(meters) and a second target answering without distance data, the matrix
keeps row `[1.5, 2.5]` for the first and the empty row for the second. -/
theorem osrm_matrix_rows_witness :
    (get_enum_target_matrix_osrm [some [[0, 1500, 2500]], none]).getD 1 [] = [] ∧
    (get_enum_target_matrix_osrm [some [[0, 1500, 2500]], none]).getD 0 [] =
      ((([[(0 : ℚ), 1500, 2500]] : List (List ℚ)).headD []).drop 1).map (fun x => x / 1000) ∧
    ((([[(0 : ℚ), 1500, 2500]] : List (List ℚ)).headD []).drop 1).map (fun x => x / 1000) =
      [(3 : ℚ) / 2, 5 / 2] :=
  ⟨((osrm_matrix_rows [some [[0, 1500, 2500]], none]).2 1 (by decide)).1 rfl,
   ((osrm_matrix_rows [some [[0, 1500, 2500]], none]).2 0 (by decide)).2 [[0, 1500, 2500]] rfl,
   by norm_num⟩

/-- Each loosening step keeps the parameters non-negative
(for an increment percentage in `[0, 100]`). -/
theorem relaxParams_nonneg (inc : ℚ) (h0 : 0 ≤ inc) (h100 : inc ≤ 100) (p : OptimParams)
    (hp : paramsNonneg p) : paramsNonneg (relaxParams inc p) := by
  obtain ⟨h1, h2, h3, h4⟩ := hp
  refine ⟨mul_nonneg h1 (by linarith), mul_nonneg h2 (by linarith),
    mul_nonneg h3 (by linarith), mul_nonneg h4 (by linarith)⟩

/-- Each loosening step is monotone: `min_target` shrinks,
`max_target`, `max_cost` and `max_total_cost` grow. -/
theorem relaxParams_mono (inc : ℚ) (h0 : 0 ≤ inc) (p : OptimParams)
    (hp : paramsNonneg p) :
    (relaxParams inc p).min_target ≤ p.min_target ∧
    p.max_target ≤ (relaxParams inc p).max_target ∧
    p.max_cost ≤ (relaxParams inc p).max_cost ∧
    p.max_total_cost ≤ (relaxParams inc p).max_total_cost := by
  obtain ⟨h1, h2, h3, h4⟩ := hp
  refine ⟨?_, ?_, ?_, ?_⟩
  · calc p.min_target * (1 - inc / 100) ≤ p.min_target * 1 := by
          apply mul_le_mul_of_nonneg_left _ h1
          linarith
        _ = p.min_target := mul_one _
  · exact le_mul_of_one_le_right h2 (by linarith)
  · exact le_mul_of_one_le_right h3 (by linarith)
  · exact le_mul_of_one_le_right h4 (by linarith)

/-- The parameters attempted by the relaxation search stay non-negative. -/
theorem attemptParams_nonneg {inc : ℚ} (h0 : 0 ≤ inc) (h100 : inc ≤ 100) {p : OptimParams}
    (hp : paramsNonneg p) : ∀ k, paramsNonneg (attemptParams inc p k) := by
  intro k
  induction k with
  | zero => exact hp
  | succ n ih =>
    show paramsNonneg (relaxParams (if n = 0 then inc else 5) (attemptParams inc p n))
    by_cases hn : n = 0
    · rw [if_pos hn]
      exact relaxParams_nonneg inc h0 h100 _ ih
    · rw [if_neg hn]
      exact relaxParams_nonneg 5 (by norm_num) (by norm_num) _ ih

/-- Shifting the attempt sequence: attempt `k+1` from `(inc, p)` equals
attempt `k` from the once-loosened parameters with the default increment. -/
theorem attemptParams_shift (inc : ℚ) (p : OptimParams) :
    ∀ k, attemptParams inc p (k + 1) = attemptParams 5 (relaxParams inc p) k := by
  intro k
  induction k with
  | zero => rfl
  | succ n ih =>
    show relaxParams (if n + 1 = 0 then inc else 5) (attemptParams inc p (n + 1)) =
      relaxParams (if n = 0 then 5 else 5) (attemptParams 5 (relaxParams inc p) n)
    rw [if_neg (Nat.succ_ne_zero n), ih, ite_self]

/-- The `k`-th parameter set actually attempted by
`recursive_min_target_optimization` is `attemptParams inc p k`. -/
theorem trace_getD_attemptParams (solve : SolverCap) (cost : List (List ℚ)) :
    ∀ (fuel : ℕ) (p : OptimParams) (inc : ℚ) (k : ℕ),
      k < ((recursive_min_target_optimization_trace solve cost p inc fuel).2).length →
      ((recursive_min_target_optimization_trace solve cost p inc fuel).2).getD k ⟨0, 0, 0, 0⟩ =
        attemptParams inc p k := by
  intro fuel
  induction fuel with
  | zero =>
    intro p inc k hk
    simp [recursive_min_target_optimization_trace] at hk
  | succ n ih =>
    intro p inc k hk
    cases hres : min_target_optimization_model solve cost
        p.min_target p.max_target p.max_cost p.max_total_cost with
    | some r =>
      simp only [recursive_min_target_optimization_trace, hres] at hk ⊢
      have hk0 : k = 0 := by
        simp at hk
        omega
      subst hk0
      rfl
    | none =>
      by_cases hp : 0 < p.min_target
      · simp only [recursive_min_target_optimization_trace, hres, if_pos hp] at hk ⊢
        cases k with
        | zero => rfl
        | succ m =>
          rw [List.getD_cons_succ]
          rw [List.length_cons] at hk
          rw [ih (relaxParams inc p) 5 m (by omega), ← attemptParams_shift]
      · simp only [recursive_min_target_optimization_trace, hres, if_neg hp] at hk ⊢
        have hk0 : k = 0 := by
          simp at hk
          omega
        subst hk0
        rfl

/-- C4 counterexample: with caller increment `50`, always-infeasible solves
and initial parameters `(1, 2, 10, 10)`, the third attempt uses the
default-5% loosening of the second attempt's parameters, not the claimed
50% loosening. -/
theorem relaxation_increment_counterexample :
    ((recursive_min_target_optimization_trace solveNone [[1, 1]]
        ⟨1, 2, 10, 10⟩ 50 3).2).getD 2 ⟨0, 0, 0, 0⟩ =
      relaxParams 5 (relaxParams 50 ⟨1, 2, 10, 10⟩) ∧
    ((recursive_min_target_optimization_trace solveNone [[1, 1]]
        ⟨1, 2, 10, 10⟩ 50 3).2).getD 2 ⟨0, 0, 0, 0⟩ ≠
      relaxParams 50 (relaxParams 50 ⟨1, 2, 10, 10⟩) := by
  have htrace : (recursive_min_target_optimization_trace solveNone [[1, 1]]
      ⟨1, 2, 10, 10⟩ 50 3).2 =
      [⟨1, 2, 10, 10⟩, relaxParams 50 ⟨1, 2, 10, 10⟩,
        relaxParams 5 (relaxParams 50 ⟨1, 2, 10, 10⟩)] := by
    norm_num [recursive_min_target_optimization_trace, min_target_optimization_model,
      solveNone, relaxParams]
  rw [htrace]
  refine ⟨rfl, ?_⟩
  simp only [List.getD_cons_succ, List.getD_cons_zero, relaxParams, OptimParams.mk.injEq]
  intro hcontra
  norm_num at hcontra

/-- C4 (amended): the first retry loosens by the caller's increment, every
later retry by the default `5` (the recursive call does not forward
`param_increment`); for an increment in `[0, 100]` and non-negative
initial parameters the attempted sequence is still monotone —
`min_target` never grows, the three caps never shrink. -/
theorem relaxation_attempt_parameters (solve : SolverCap) (cost : List (List ℚ))
    (p : OptimParams) (inc : ℚ) (h0 : 0 ≤ inc) (h100 : inc ≤ 100) (hp : paramsNonneg p) :
    attemptParams inc p 1 = relaxParams inc p ∧
    (∀ k, attemptParams inc p (k + 2) = relaxParams 5 (attemptParams inc p (k + 1))) ∧
    (∀ fuel k, k < ((recursive_min_target_optimization_trace solve cost p inc fuel).2).length →
      ((recursive_min_target_optimization_trace solve cost p inc fuel).2).getD k ⟨0, 0, 0, 0⟩ =
        attemptParams inc p k) ∧
    (∀ k, (attemptParams inc p (k + 1)).min_target ≤ (attemptParams inc p k).min_target ∧
      (attemptParams inc p k).max_target ≤ (attemptParams inc p (k + 1)).max_target ∧
      (attemptParams inc p k).max_cost ≤ (attemptParams inc p (k + 1)).max_cost ∧
      (attemptParams inc p k).max_total_cost ≤ (attemptParams inc p (k + 1)).max_total_cost) := by
  refine ⟨rfl, fun k => ?_, fun fuel k hk => trace_getD_attemptParams solve cost fuel p inc k hk,
    fun k => ?_⟩
  · show relaxParams (if k + 1 = 0 then inc else 5) (attemptParams inc p (k + 1)) =
      relaxParams 5 (attemptParams inc p (k + 1))
    rw [if_neg (Nat.succ_ne_zero k)]
  · have hnn := attemptParams_nonneg h0 h100 hp k
    have hstep : attemptParams inc p (k + 1) =
        relaxParams (if k = 0 then inc else 5) (attemptParams inc p k) := rfl
    rw [hstep]
    by_cases hk : k = 0
    · rw [if_pos hk]
      exact relaxParams_mono inc h0 _ hnn
    · rw [if_neg hk]
      exact relaxParams_mono 5 (by norm_num) _ hnn

/-- C4 witness: the amended statement at the concrete run of the
counterexample — increment `50`, initial parameters `(1, 2, 10, 10)`. -/
theorem relaxation_attempt_parameters_witness :
    attemptParams 50 ⟨1, 2, 10, 10⟩ 1 = relaxParams 50 ⟨1, 2, 10, 10⟩ ∧
    (∀ k, attemptParams 50 ⟨1, 2, 10, 10⟩ (k + 2) =
      relaxParams 5 (attemptParams 50 ⟨1, 2, 10, 10⟩ (k + 1))) ∧
    (∀ fuel k, k < ((recursive_min_target_optimization_trace solveNone [[1, 1]]
        ⟨1, 2, 10, 10⟩ 50 fuel).2).length →
      ((recursive_min_target_optimization_trace solveNone [[1, 1]]
        ⟨1, 2, 10, 10⟩ 50 fuel).2).getD k ⟨0, 0, 0, 0⟩ =
        attemptParams 50 ⟨1, 2, 10, 10⟩ k) ∧
    (∀ k, (attemptParams 50 ⟨1, 2, 10, 10⟩ (k + 1)).min_target ≤
        (attemptParams 50 ⟨1, 2, 10, 10⟩ k).min_target ∧
      (attemptParams 50 ⟨1, 2, 10, 10⟩ k).max_target ≤
        (attemptParams 50 ⟨1, 2, 10, 10⟩ (k + 1)).max_target ∧
      (attemptParams 50 ⟨1, 2, 10, 10⟩ k).max_cost ≤
        (attemptParams 50 ⟨1, 2, 10, 10⟩ (k + 1)).max_cost ∧
      (attemptParams 50 ⟨1, 2, 10, 10⟩ k).max_total_cost ≤
        (attemptParams 50 ⟨1, 2, 10, 10⟩ (k + 1)).max_total_cost) :=
  relaxation_attempt_parameters solveNone [[1, 1]] ⟨1, 2, 10, 10⟩ 50
    (by norm_num) (by norm_num) ⟨by norm_num, by norm_num, by norm_num, by norm_num⟩

/-- With an always-infeasible solve, positive `min_target` is preserved by
the default loosening, so the recursion never takes either return branch. -/
theorem trace_stuck_of_min_target_pos (cost : List (List ℚ)) :
    ∀ (fuel : ℕ) (p : OptimParams), 0 < p.min_target →
      (recursive_min_target_optimization_trace solveNone cost p 5 fuel).1 = none := by
  intro fuel
  induction fuel with
  | zero =>
    intro p hp
    rfl
  | succ n ih =>
    intro p hp
    have hstep : 0 < (relaxParams 5 p).min_target := by
      have hfac : (0 : ℚ) < 1 - 5 / 100 := by norm_num
      simpa [relaxParams] using mul_pos hp hfac
    simp only [recursive_min_target_optimization_trace, min_target_optimization_model,
      solveNone, if_pos hp]
    exact ih _ hstep

/-- C3: `recursive_min_target_optimization` does not terminate on an
always-infeasible instance started at `min_target = 1`: multiplication by
`1 - 5/100` keeps `min_target` strictly positive, so for every recursion
budget the search is still running — it never returns the `(None, {})`
failure the code's own docstring promises when `min_target` reaches zero. -/
theorem recursive_optimization_never_returns :
    ∀ fuel : ℕ,
      recursive_min_target_optimization solveNone [[1, 1]] ⟨1, 2, 10, 10⟩ 5 fuel = none :=
  fun fuel =>
    trace_stuck_of_min_target_pos [[1, 1]] fuel ⟨1, 2, 10, 10⟩ (by norm_num)

/-- C10: `create_subset` keeps exactly the rows whose id occurs in
`subset_ids`, as a sublist of the original dataframe (original row order,
unknown ids silently dropped), and the result does not depend on the
order of `subset_ids`. -/
theorem create_subset_rows (df : List LocRow) (subset_ids : List ℤ) :
    (∀ r, r ∈ create_subset df subset_ids ↔ r ∈ df ∧ r.id ∈ subset_ids) ∧
    (create_subset df subset_ids).Sublist df ∧
    (∀ other_ids, subset_ids.Perm other_ids →
      create_subset df subset_ids = create_subset df other_ids) := by
  refine ⟨fun r => ?_, List.filter_sublist df, fun other_ids hperm => ?_⟩
  · simp [create_subset, List.mem_filter]
  · unfold create_subset
    apply List.filter_congr
    intro r _
    simp [hperm.mem_iff]

/-- C10 witness: a 3-row dataset subset by `[3, 1, 99]` — kept rows are
those with ids 3 and 1, in dataset order, the unknown id 99 ignored, and
subsetting by the reordered `[99, 1, 3]` gives the same result. -/
theorem create_subset_rows_witness :
    (∀ r, r ∈ create_subset [⟨1, 0, 0⟩, ⟨2, 0, 0⟩, ⟨3, 0, 0⟩] [3, 1, 99] ↔
      r ∈ ([⟨1, 0, 0⟩, ⟨2, 0, 0⟩, ⟨3, 0, 0⟩] : List LocRow) ∧ r.id ∈ ([3, 1, 99] : List ℤ)) ∧
    (create_subset [⟨1, 0, 0⟩, ⟨2, 0, 0⟩, ⟨3, 0, 0⟩] [3, 1, 99]).Sublist
      [⟨1, 0, 0⟩, ⟨2, 0, 0⟩, ⟨3, 0, 0⟩] ∧
    create_subset [⟨1, 0, 0⟩, ⟨2, 0, 0⟩, ⟨3, 0, 0⟩] [3, 1, 99] =
      create_subset [⟨1, 0, 0⟩, ⟨2, 0, 0⟩, ⟨3, 0, 0⟩] [99, 1, 3] :=
  ⟨(create_subset_rows [⟨1, 0, 0⟩, ⟨2, 0, 0⟩, ⟨3, 0, 0⟩] [3, 1, 99]).1,
   (create_subset_rows [⟨1, 0, 0⟩, ⟨2, 0, 0⟩, ⟨3, 0, 0⟩] [3, 1, 99]).2.1,
   (create_subset_rows [⟨1, 0, 0⟩, ⟨2, 0, 0⟩, ⟨3, 0, 0⟩] [3, 1, 99]).2.2 [99, 1, 3] (by decide)⟩

/-- Reading every position of a list back in order reproduces the list. -/
theorem map_getD_range {α : Type} (l : List α) (d : α) :
    (List.range l.length).map (fun i => l.getD i d) = l := by
  induction l with
  | nil => rfl
  | cons a t ih =>
    show (List.range (t.length + 1)).map (fun i => (a :: t).getD i d) = a :: t
    rw [List.range_succ_eq_map, List.map_cons, List.map_map]
    have hcomp : ((fun i => (a :: t).getD i d) ∘ Nat.succ) = fun i => t.getD i d := rfl
    rw [hcomp, ih]
    rfl

/-- Counting positions whose value satisfies `p` equals counting values. -/
theorem countP_getD_range {α : Type} (d : α) (p : α → Bool) (l : List α) :
    (List.range l.length).countP (fun i => p (l.getD i d)) = l.countP p := by
  induction l with
  | nil => rfl
  | cons a t ih =>
    show (List.range (t.length + 1)).countP (fun i => p ((a :: t).getD i d)) = _
    rw [List.range_succ_eq_map, List.countP_cons, List.countP_map]
    have hcomp : ((fun i => p ((a :: t).getD i d)) ∘ Nat.succ) = fun i => p (t.getD i d) := rfl
    rw [hcomp, ih, List.countP_cons]
    rfl

/-- A 0/1-valued list sums to its number of positive entries. -/
theorem sum_eq_countP_pos (l : List ℚ) (hbin : ∀ v ∈ l, v = 0 ∨ v = 1) :
    l.sum = ((l.countP fun v => decide (0 < v) : ℕ) : ℚ) := by
  induction l with
  | nil => simp
  | cons a t ih =>
    have ht := ih fun v hv => hbin v (List.mem_cons_of_mem a hv)
    rcases hbin a (List.mem_cons_self a t) with h | h <;> subst h <;>
      simp [List.sum_cons, List.countP_cons, ht] <;> push_cast <;> ring

/-- Multiplying a 0/1-valued row by an entrywise positive row preserves
the number of positive entries. -/
theorem countP_pos_zipWith_mul :
    ∀ arow crow : List ℚ, arow.length = crow.length →
      (∀ v ∈ arow, v = 0 ∨ v = 1) → (∀ c ∈ crow, 0 < c) →
      ((List.zipWith (· * ·) arow crow).countP fun v => decide (0 < v)) =
        arow.countP fun v => decide (0 < v) := by
  intro arow
  induction arow with
  | nil =>
    intro crow _ _ _
    rfl
  | cons a t ih =>
    intro crow hlen hbin hpos
    cases crow with
    | nil => simp at hlen
    | cons c ct =>
      have hc := hpos c (List.mem_cons_self c ct)
      have ht := ih ct (by simpa using hlen)
        (fun v hv => hbin v (List.mem_cons_of_mem a hv))
        (fun v hv => hpos v (List.mem_cons_of_mem c hv))
      rw [List.zipWith_cons_cons, List.countP_cons, List.countP_cons, ht]
      rcases hbin a (List.mem_cons_self a t) with h | h <;> subst h
      · norm_num
      · norm_num [hc]

/-- `flatMap` only depends on the function's values on the list. -/
theorem flatMap_congr_fn {α β : Type} (l : List α) (f g : α → List β)
    (h : ∀ a ∈ l, f a = g a) : l.flatMap f = l.flatMap g := by
  induction l with
  | nil => rfl
  | cons a t ih =>
    rw [List.flatMap_cons, List.flatMap_cons, h a (List.mem_cons_self a t),
      ih fun x hx => h x (List.mem_cons_of_mem a hx)]

/-- `flatMap` of singletons is `map`. -/
theorem flatMap_singleton_fn {α β : Type} (l : List α) (f : α → β) :
    (l.flatMap fun a => [f a]) = l.map f := by
  induction l with
  | nil => rfl
  | cons a t ih => rw [List.flatMap_cons, List.map_cons, ih]; rfl

/-- `getD` distributes over an elementwise product of rows (with the
`0` default absorbing any length mismatch). -/
theorem getD_zipWith_mul : ∀ (ar cr : List ℚ) (j : ℕ),
    (List.zipWith (· * ·) ar cr).getD j 0 = ar.getD j 0 * cr.getD j 0 := by
  intro ar
  induction ar with
  | nil =>
    intro cr j
    simp
  | cons a t ih =>
    intro cr j
    cases cr with
    | nil => simp
    | cons c ct =>
      cases j with
      | zero => rfl
      | succ m =>
        rw [List.zipWith_cons_cons, List.getD_cons_succ, List.getD_cons_succ,
          List.getD_cons_succ, ih]

/-- An entry of the elementwise matrix product is the product of entries. -/
theorem entry_mulElem (A C : List (List ℚ)) (hCA : C.length = A.length) (i j : ℕ)
    (hi : i < A.length) :
    entry (mulElem A C) i j = entry A i j * entry C i j := by
  have hiz : i < (mulElem A C).length := by
    simp only [mulElem, List.length_zipWith, hCA]
    simpa using hi
  have hrow : (mulElem A C).getD i [] =
      List.zipWith (· * ·) (A.getD i []) (C.getD i []) := by
    rw [List.getD_eq_getElem _ _ hiz]
    simp only [mulElem]
    rw [List.getElem_zipWith, List.getD_eq_getElem _ _ hi,
      List.getD_eq_getElem _ _ (hCA ▸ hi)]
  rw [entry, hrow, getD_zipWith_mul]
  rfl

/-- In each row of the stacked table the number of kept cells is the
number of positive entries of that row of the stacked matrix. -/
theorem stackPositive_map_tid (m : List (List ℚ)) (tids eids : List ℤ)
    (hcount : ∀ i < tids.length,
      ((List.range eids.length).countP fun j => decide (0 < entry m i j)) = 1) :
    (stackPositive m tids eids).map (fun r => r.target_id) = tids := by
  unfold stackPositive
  rw [List.filter_flatMap, List.map_flatMap]
  have hinner : ∀ i ∈ List.range tids.length,
      (List.map (fun r : AssignRow => r.target_id)
        (List.filter (fun r : AssignRow => decide (0 < r.cost))
          ((List.range eids.length).map fun j =>
            (⟨tids.getD i 0, eids.getD j 0, entry m i j⟩ : AssignRow)))) =
        [tids.getD i 0] := by
    intro i hi
    rw [List.filter_map, List.map_map]
    have hconst : ((fun r : AssignRow => r.target_id) ∘ fun j =>
        (⟨tids.getD i 0, eids.getD j 0, entry m i j⟩ : AssignRow)) =
        Function.const ℕ (tids.getD i 0) := rfl
    rw [hconst, List.map_const]
    have hlen : (List.filter ((fun r : AssignRow => decide (0 < r.cost)) ∘ fun j =>
        (⟨tids.getD i 0, eids.getD j 0, entry m i j⟩ : AssignRow))
        (List.range eids.length)).length = 1 := by
      rw [← List.countP_eq_length_filter]
      exact hcount i (List.mem_range.1 hi)
    rw [hlen]
    rfl
  rw [flatMap_congr_fn _ _ _ hinner, flatMap_singleton_fn, map_getD_range]

/-- Under unit row sums, binarity and strictly positive costs, each row of
the assignment matrix contributes exactly one kept cell. -/
theorem convert_rowcount (A C : List (List ℚ)) (tids eids : List ℤ)
    (hA : A.length = tids.length) (hCA : C.length = A.length)
    (hAr : ∀ row ∈ A, row.length = eids.length)
    (hCr : ∀ row ∈ C, row.length = eids.length)
    (hbin : ∀ row ∈ A, ∀ v ∈ row, v = 0 ∨ v = 1)
    (hsum : ∀ row ∈ A, row.sum = 1)
    (hpos : ∀ row ∈ C, ∀ v ∈ row, 0 < v) :
    ∀ i < tids.length,
      ((List.range eids.length).countP fun j => decide (0 < entry (mulElem A C) i j)) = 1 := by
  intro i hi
  have hiA : i < A.length := hA ▸ hi
  have hiC : i < C.length := hCA ▸ hiA
  have harow : A.getD i [] ∈ A := by
    rw [List.getD_eq_getElem _ _ hiA]
    exact List.getElem_mem hiA
  have hcrow : C.getD i [] ∈ C := by
    rw [List.getD_eq_getElem _ _ hiC]
    exact List.getElem_mem hiC
  have hrowlen : (A.getD i []).length = eids.length := hAr _ harow
  have hpred : (fun j => decide (0 < entry (mulElem A C) i j)) =
      fun j => decide (0 < (A.getD i []).getD j 0 * (C.getD i []).getD j 0) := by
    funext j
    rw [entry_mulElem A C hCA i j hiA]
    rfl
  rw [hpred]
  have hcp := countP_getD_range (α := ℚ) 0
    (fun v => decide (0 < v)) (List.zipWith (· * ·) (A.getD i []) (C.getD i []))
  have hzlen : (List.zipWith (· * ·) (A.getD i []) (C.getD i [])).length = eids.length := by
    rw [List.length_zipWith, hrowlen, hCr _ hcrow]
    simp
  rw [hzlen] at hcp
  have hget : (fun j => decide (0 < (A.getD i []).getD j 0 * (C.getD i []).getD j 0)) =
      fun j => decide (0 < (List.zipWith (· * ·) (A.getD i []) (C.getD i [])).getD j 0) := by
    funext j
    rw [getD_zipWith_mul]
  rw [hget, hcp, countP_pos_zipWith_mul _ _ (by rw [hrowlen, hCr _ hcrow])
    (hbin _ harow) (hpos _ hcrow)]
  have hs := sum_eq_countP_pos (A.getD i []) (hbin _ harow)
  rw [hsum _ harow] at hs
  exact_mod_cast hs.symm

/-- The target-id column of the assignment table is exactly the target id
list, in order. -/
theorem convert_table_tids (A C : List (List ℚ)) (tids eids : List ℤ)
    (hA : A.length = tids.length) (hCA : C.length = A.length)
    (hAr : ∀ row ∈ A, row.length = eids.length)
    (hCr : ∀ row ∈ C, row.length = eids.length)
    (hbin : ∀ row ∈ A, ∀ v ∈ row, v = 0 ∨ v = 1)
    (hsum : ∀ row ∈ A, row.sum = 1)
    (hpos : ∀ row ∈ C, ∀ v ∈ row, 0 < v) :
    (convert_assignment_matrix_to_table A eids tids (some C)).map
      (fun r => r.target_id) = tids :=
  stackPositive_map_tid (mulElem A C) tids eids
    (convert_rowcount A C tids eids hA hCA hAr hCr hbin hsum hpos)

/-- C2 (amended): for a binary assignment matrix with unit row sums and a
strictly positive cost matrix, the assignment table has exactly one row
per target — row count equals target count, every target id appears, and
(for unique target ids) no `(target_id, enum_id)` pair repeats. -/
theorem convert_table_one_row_per_target (A C : List (List ℚ)) (tids eids : List ℤ)
    (hA : A.length = tids.length) (hCA : C.length = A.length)
    (hAr : ∀ row ∈ A, row.length = eids.length)
    (hCr : ∀ row ∈ C, row.length = eids.length)
    (hbin : ∀ row ∈ A, ∀ v ∈ row, v = 0 ∨ v = 1)
    (hsum : ∀ row ∈ A, row.sum = 1)
    (hpos : ∀ row ∈ C, ∀ v ∈ row, 0 < v) :
    (convert_assignment_matrix_to_table A eids tids (some C)).length = tids.length ∧
    (∀ tid ∈ tids, ∃ r ∈ convert_assignment_matrix_to_table A eids tids (some C),
      r.target_id = tid) ∧
    (tids.Nodup →
      ((convert_assignment_matrix_to_table A eids tids (some C)).map
        fun r => (r.target_id, r.enum_id)).Nodup) := by
  have hmap := convert_table_tids A C tids eids hA hCA hAr hCr hbin hsum hpos
  refine ⟨?_, ?_, ?_⟩
  · have hlen := congrArg List.length hmap
    rwa [List.length_map] at hlen
  · intro tid htid
    rw [← hmap] at htid
    obtain ⟨r, hr, hrt⟩ := List.mem_map.1 htid
    exact ⟨r, hr, hrt⟩
  · intro hnd
    apply List.Nodup.of_map Prod.fst
    rw [List.map_map]
    have hfst : (Prod.fst ∘ fun r : AssignRow => (r.target_id, r.enum_id)) =
        fun r : AssignRow => r.target_id := rfl
    rw [hfst, hmap]
    exact hnd

/-- C2 witness: the amended statement at `A = [[1,0],[0,1]]`,
`C = [[1,2],[3,4]]`, target ids `[10, 20]`, enumerator ids `[1, 2]`. -/
theorem convert_table_one_row_per_target_witness :
    (convert_assignment_matrix_to_table [[1, 0], [0, 1]] [1, 2] [10, 20]
      (some [[1, 2], [3, 4]])).length = ([10, 20] : List ℤ).length ∧
    (∀ tid ∈ ([10, 20] : List ℤ),
      ∃ r ∈ convert_assignment_matrix_to_table [[1, 0], [0, 1]] [1, 2] [10, 20]
        (some [[1, 2], [3, 4]]), r.target_id = tid) ∧
    (([10, 20] : List ℤ).Nodup →
      ((convert_assignment_matrix_to_table [[1, 0], [0, 1]] [1, 2] [10, 20]
        (some [[1, 2], [3, 4]])).map fun r => (r.target_id, r.enum_id)).Nodup) :=
  convert_table_one_row_per_target [[1, 0], [0, 1]] [[1, 2], [3, 4]] [10, 20] [1, 2]
    (by decide) (by decide)
    (by intro row hr; simp at hr; rcases hr with h | h <;> subst h <;> rfl)
    (by intro row hr; simp at hr; rcases hr with h | h <;> subst h <;> rfl)
    (by intro row hr; simp at hr; rcases hr with h | h <;> subst h <;> decide)
    (by intro row hr; simp at hr; rcases hr with h | h <;> subst h <;> norm_num)
    (by intro row hr; simp at hr; rcases hr with h | h <;> subst h <;> decide)

/-- C2 counterexample: the claim as stated (any non-negative cost matrix)
fails — a zero cost on the assigned cell makes the `stacked > 0` filter
drop the target's row, so a 1-target instance yields an empty table. -/
theorem convert_table_zero_cost_counterexample :
    (∀ row ∈ ([[(1 : ℚ)]] : List (List ℚ)), row.sum = 1) ∧
    (∀ row ∈ ([[(0 : ℚ)]] : List (List ℚ)), ∀ v ∈ row, 0 ≤ v) ∧
    (convert_assignment_matrix_to_table [[1]] [5] [7] (some [[0]])).length ≠
      ([(7 : ℤ)]).length := by
  refine ⟨?_, ?_, ?_⟩
  · intro row hr
    simp at hr
    subst hr
    norm_num
  · intro row hr v hv
    simp at hr
    subst hr
    simp at hv
    subst hv
    decide
  · have : convert_assignment_matrix_to_table [[1]] [5] [7] (some [[0]]) = [] := by
      norm_num [convert_assignment_matrix_to_table, stackPositive, mulElem, entry,
        List.range_succ]
    rw [this]
    decide

/-- Membership in the stacked-and-filtered table: exactly the in-range
cells with a strictly positive stacked value. -/
theorem mem_stackPositive (m : List (List ℚ)) (tids eids : List ℤ) (r : AssignRow) :
    r ∈ stackPositive m tids eids ↔
      ∃ i, i < tids.length ∧ ∃ j, j < eids.length ∧
        r = ⟨tids.getD i 0, eids.getD j 0, entry m i j⟩ ∧ 0 < entry m i j := by
  unfold stackPositive
  rw [List.mem_filter]
  simp only [List.mem_flatMap, List.mem_range, List.mem_map, decide_eq_true_eq]
  constructor
  · rintro ⟨⟨i, hi, j, hj, rfl⟩, hpos⟩
    exact ⟨i, hi, j, hj, rfl, hpos⟩
  · rintro ⟨i, hi, j, hj, rfl, hpos⟩
    exact ⟨⟨i, hi, j, hj, rfl⟩, hpos⟩

/-- Every entry of a 0/1-valued matrix is 0 or 1 (out-of-range reads
default to 0). -/
theorem entry_binary (A : List (List ℚ)) (hbin : ∀ row ∈ A, ∀ v ∈ row, v = 0 ∨ v = 1)
    (i j : ℕ) : entry A i j = 0 ∨ entry A i j = 1 := by
  unfold entry
  by_cases hi : i < A.length
  · rw [List.getD_eq_getElem _ _ hi]
    by_cases hj : j < A[i].length
    · rw [List.getD_eq_getElem _ _ hj]
      exact hbin _ (List.getElem_mem hi) _ (List.getElem_mem hj)
    · rw [List.getD_eq_default _ _ (le_of_not_lt hj)]
      exact Or.inl rfl
  · rw [List.getD_eq_default _ _ (le_of_not_lt hi)]
    rw [List.getD_eq_default _ _ (Nat.zero_le j)]
    exact Or.inl rfl

/-- With a binary assignment matrix and strictly positive costs, a stacked
cell is positive exactly when the assignment entry is 1. -/
theorem entry_mulElem_pos_iff (A C : List (List ℚ)) (eids : List ℤ)
    (hCA : C.length = A.length)
    (hAr : ∀ row ∈ A, row.length = eids.length)
    (hCr : ∀ row ∈ C, row.length = eids.length)
    (hbin : ∀ row ∈ A, ∀ v ∈ row, v = 0 ∨ v = 1)
    (hpos : ∀ row ∈ C, ∀ v ∈ row, 0 < v)
    (i j : ℕ) (hiA : i < A.length) :
    0 < entry (mulElem A C) i j ↔ entry A i j = 1 := by
  have hiC : i < C.length := hCA ▸ hiA
  have harow : A.getD i [] ∈ A := by
    rw [List.getD_eq_getElem _ _ hiA]
    exact List.getElem_mem hiA
  have hcrow : C.getD i [] ∈ C := by
    rw [List.getD_eq_getElem _ _ hiC]
    exact List.getElem_mem hiC
  rw [entry_mulElem A C hCA i j hiA]
  constructor
  · intro h
    rcases entry_binary A hbin i j with h0 | h1
    · rw [h0, zero_mul] at h
      exact absurd h (lt_irrefl 0)
    · exact h1
  · intro h1
    rw [h1, one_mul]
    have hjA : j < (A.getD i []).length := by
      by_contra hj
      rw [entry, List.getD_eq_default _ _ (le_of_not_lt hj)] at h1
      norm_num at h1
    have hjC : j < (C.getD i []).length := by
      rw [hCr _ hcrow, ← hAr _ harow]
      exact hjA
    have hmem : entry C i j ∈ C.getD i [] := by
      rw [entry, List.getD_eq_getElem _ _ hjC]
      exact List.getElem_mem hjC
    exact hpos _ hcrow _ hmem

/-- An in-range entry of the rebuilt matrix is the indicator of the pair
`(target_ids[i], enum_ids[j])` occurring in the table. -/
theorem entry_rebuild (table : List AssignRow) (tids eids : List ℤ) (i j : ℕ)
    (hi : i < tids.length) (hj : j < eids.length) :
    entry (rebuild_assignment_matrix table tids eids) i j =
      if table.any (fun r => decide (r.target_id = tids.getD i 0) &&
          decide (r.enum_id = eids.getD j 0)) then 1 else 0 := by
  unfold rebuild_assignment_matrix entry
  have hi2 : i < (tids.map fun tid => eids.map fun eid =>
      if table.any (fun r => decide (r.target_id = tid) && decide (r.enum_id = eid))
      then (1 : ℚ) else 0).length := by
    simpa using hi
  rw [List.getD_eq_getElem _ _ hi2, List.getElem_map]
  have hj2 : j < (eids.map fun eid =>
      if table.any (fun r => decide (r.target_id = tids[i]) && decide (r.enum_id = eid))
      then (1 : ℚ) else 0).length := by
    simpa using hj
  rw [List.getD_eq_getElem _ _ hj2, List.getElem_map,
    List.getD_eq_getElem tids 0 hi, List.getD_eq_getElem eids 0 hj]

/-- C7 (amended): for a binary assignment matrix with unit row sums,
a strictly positive cost matrix and unique ids, rebuilding a dense 0/1
matrix from the assignment table reproduces exactly the 1-entries of the
original assignment matrix. -/
theorem assignment_table_roundtrip (A C : List (List ℚ)) (tids eids : List ℤ)
    (hA : A.length = tids.length) (hCA : C.length = A.length)
    (hAr : ∀ row ∈ A, row.length = eids.length)
    (hCr : ∀ row ∈ C, row.length = eids.length)
    (hbin : ∀ row ∈ A, ∀ v ∈ row, v = 0 ∨ v = 1)
    (hsum : ∀ row ∈ A, row.sum = 1)
    (hpos : ∀ row ∈ C, ∀ v ∈ row, 0 < v)
    (hndT : tids.Nodup) (hndE : eids.Nodup) :
    ∀ i < tids.length, ∀ j < eids.length,
      (entry (rebuild_assignment_matrix
        (convert_assignment_matrix_to_table A eids tids (some C)) tids eids) i j = 1 ↔
      entry A i j = 1) := by
  intro i hi j hj
  have hiA : i < A.length := hA ▸ hi
  have hT : convert_assignment_matrix_to_table A eids tids (some C) =
      stackPositive (mulElem A C) tids eids := rfl
  rw [entry_rebuild _ tids eids i j hi hj]
  constructor
  · intro h1
    by_cases hany : (convert_assignment_matrix_to_table A eids tids (some C)).any
        (fun r => decide (r.target_id = tids.getD i 0) &&
          decide (r.enum_id = eids.getD j 0)) = true
    · obtain ⟨r, hr, hpred⟩ := List.any_eq_true.1 hany
      rw [hT, mem_stackPositive] at hr
      obtain ⟨i', hi', j', hj', rfl, hposr⟩ := hr
      simp only [Bool.and_eq_true, decide_eq_true_eq] at hpred
      obtain ⟨hti, hej⟩ := hpred
      have hii : i' = i := by
        rw [List.getD_eq_getElem tids 0 hi', List.getD_eq_getElem tids 0 hi] at hti
        exact (List.Nodup.getElem_inj_iff hndT).1 hti
      have hjj : j' = j := by
        rw [List.getD_eq_getElem eids 0 hj', List.getD_eq_getElem eids 0 hj] at hej
        exact (List.Nodup.getElem_inj_iff hndE).1 hej
      subst hii
      subst hjj
      exact (entry_mulElem_pos_iff A C eids hCA hAr hCr hbin hpos i' j' hiA).1 hposr
    · rw [if_neg hany] at h1
      norm_num at h1
  · intro hA1
    have hposc : 0 < entry (mulElem A C) i j :=
      (entry_mulElem_pos_iff A C eids hCA hAr hCr hbin hpos i j hiA).2 hA1
    have hmem : (⟨tids.getD i 0, eids.getD j 0, entry (mulElem A C) i j⟩ : AssignRow) ∈
        convert_assignment_matrix_to_table A eids tids (some C) := by
      rw [hT, mem_stackPositive]
      exact ⟨i, hi, j, hj, rfl, hposc⟩
    have hany : (convert_assignment_matrix_to_table A eids tids (some C)).any
        (fun r => decide (r.target_id = tids.getD i 0) &&
          decide (r.enum_id = eids.getD j 0)) = true :=
      List.any_eq_true.2 ⟨_, hmem, by simp⟩
    rw [if_pos hany]

/-- C7 witness: the amended round-trip at `A = [[1,0],[0,1]]`,
`C = [[1,2],[3,4]]`, target ids `[10, 20]`, enumerator ids `[1, 2]`. -/
theorem assignment_table_roundtrip_witness :
    (entry (rebuild_assignment_matrix
        (convert_assignment_matrix_to_table [[1, 0], [0, 1]] [1, 2] [10, 20]
          (some [[1, 2], [3, 4]])) [10, 20] [1, 2]) 0 0 = 1 ↔
      entry [[1, 0], [0, 1]] 0 0 = 1) ∧
    (entry (rebuild_assignment_matrix
        (convert_assignment_matrix_to_table [[1, 0], [0, 1]] [1, 2] [10, 20]
          (some [[1, 2], [3, 4]])) [10, 20] [1, 2]) 0 1 = 1 ↔
      entry [[1, 0], [0, 1]] 0 1 = 1) :=
  ⟨assignment_table_roundtrip [[1, 0], [0, 1]] [[1, 2], [3, 4]] [10, 20] [1, 2]
    (by decide) (by decide)
    (by intro row hr; simp at hr; rcases hr with h | h <;> subst h <;> rfl)
    (by intro row hr; simp at hr; rcases hr with h | h <;> subst h <;> rfl)
    (by intro row hr; simp at hr; rcases hr with h | h <;> subst h <;> decide)
    (by intro row hr; simp at hr; rcases hr with h | h <;> subst h <;> norm_num)
    (by intro row hr; simp at hr; rcases hr with h | h <;> subst h <;> decide)
    (by decide) (by decide) 0 (by decide) 0 (by decide),
   assignment_table_roundtrip [[1, 0], [0, 1]] [[1, 2], [3, 4]] [10, 20] [1, 2]
    (by decide) (by decide)
    (by intro row hr; simp at hr; rcases hr with h | h <;> subst h <;> rfl)
    (by intro row hr; simp at hr; rcases hr with h | h <;> subst h <;> rfl)
    (by intro row hr; simp at hr; rcases hr with h | h <;> subst h <;> decide)
    (by intro row hr; simp at hr; rcases hr with h | h <;> subst h <;> norm_num)
    (by intro row hr; simp at hr; rcases hr with h | h <;> subst h <;> decide)
    (by decide) (by decide) 0 (by decide) 1 (by decide)⟩

/-- C7 counterexample: with the non-negative cost matrix `[[0]]` the
assigned cell `(0,0)` of `[[1]]` is dropped from the table, so the rebuilt
matrix has a 0 where the original has a 1. -/
theorem roundtrip_zero_cost_counterexample :
    entry [[1]] 0 0 = 1 ∧
    (∀ row ∈ ([[(0 : ℚ)]] : List (List ℚ)), ∀ v ∈ row, 0 ≤ v) ∧
    entry (rebuild_assignment_matrix
      (convert_assignment_matrix_to_table [[1]] [5] [7] (some [[0]])) [7] [5]) 0 0 = 0 := by
  refine ⟨by decide, ?_, ?_⟩
  · intro row hr v hv
    simp at hr
    subst hr
    simp at hv
    subst hv
    decide
  · have hempty : convert_assignment_matrix_to_table [[1]] [5] [7] (some [[0]]) = [] := by
      norm_num [convert_assignment_matrix_to_table, stackPositive, mulElem, entry,
        List.range_succ]
    rw [hempty]
    decide

/-- A fold of `min` never exceeds its initial value. -/
theorem foldl_min_le_init : ∀ (t : List ℚ) (a : ℚ), t.foldl min a ≤ a := by
  intro t
  induction t with
  | nil => intro a; exact le_refl a
  | cons b t ih =>
    intro a
    exact le_trans (ih (min a b)) (min_le_left a b)

/-- A fold of `min` never exceeds any list element. -/
theorem foldl_min_le_mem : ∀ (t : List ℚ) (a x : ℚ), x ∈ t → t.foldl min a ≤ x := by
  intro t
  induction t with
  | nil =>
    intro a x hx
    simp at hx
  | cons b t ih =>
    intro a x hx
    rcases List.mem_cons.1 hx with h | h
    · subst h
      exact le_trans (foldl_min_le_init t (min a x)) (min_le_right a x)
    · exact ih (min a b) x h

/-- A fold of `min` is attained: it is the initial value or a list element. -/
theorem foldl_min_mem : ∀ (t : List ℚ) (a : ℚ), t.foldl min a ∈ a :: t := by
  intro t
  induction t with
  | nil => intro a; exact List.mem_singleton.2 rfl
  | cons b t ih =>
    intro a
    show t.foldl min (min a b) ∈ a :: b :: t
    rcases List.mem_cons.1 (ih (min a b)) with he | ht
    · rw [he]
      rcases min_choice a b with h1 | h1 <;> rw [h1]
      · exact List.mem_cons_self a (b :: t)
      · exact List.mem_cons_of_mem a (List.mem_cons_self b t)
    · exact List.mem_cons_of_mem a (List.mem_cons_of_mem b ht)

/-- The pandas-style minimum of a non-empty list is one of its elements. -/
theorem minD_mem : ∀ (l : List ℚ), l ≠ [] → minD l ∈ l := by
  intro l hl
  match l with
  | [] => exact absurd rfl hl
  | a :: t => exact foldl_min_mem t a

/-- The pandas-style minimum is a lower bound. -/
theorem minD_le (l : List ℚ) (x : ℚ) (hx : x ∈ l) : minD l ≤ x := by
  match l with
  | [] => simp at hx
  | a :: t =>
    rcases List.mem_cons.1 hx with h | h
    · subst h
      exact foldl_min_le_init t x
    · exact foldl_min_le_mem t a x h

/-- Membership in the rank range `[0, k)`. -/
theorem mem_intRange {k : ℕ} {x : ℤ} : x ∈ intRange k ↔ 0 ≤ x ∧ x < (k : ℤ) := by
  unfold intRange
  simp only [List.mem_map, List.mem_range]
  constructor
  · rintro ⟨n, hn, rfl⟩
    exact ⟨Int.natCast_nonneg n, by exact_mod_cast hn⟩
  · rintro ⟨h0, hlt⟩
    exact ⟨x.toNat, by omega, Int.toNat_of_nonneg h0⟩

/-- The rank range has no duplicates. -/
theorem nodup_intRange (k : ℕ) : (intRange k).Nodup := by
  unfold intRange
  exact List.Nodup.map (fun a b h => Int.natCast_inj.1 h) (List.nodup_range k)

/-- Cyclic shifting `o ↦ (o - s) % k` permutes the rank range. -/
theorem shift_perm_intRange (k : ℕ) (hk : 0 < k) (s : ℤ) :
    (((intRange k).map fun o => (o - s) % (k : ℤ)).Perm (intRange k)) := by
  have hknz : (k : ℤ) ≠ 0 := by exact_mod_cast Nat.pos_iff_ne_zero.1 hk
  have hkpos : (0 : ℤ) < k := by exact_mod_cast hk
  have hnd : ((intRange k).map fun o => (o - s) % (k : ℤ)).Nodup := by
    refine List.Nodup.map_on ?_ (nodup_intRange k)
    intro a ha b hb heq
    rw [mem_intRange] at ha hb
    have hsub := Int.emod_eq_emod_iff_emod_sub_eq_zero.1 heq
    have hab : (a - s - (b - s)) = a - b := by ring
    rw [hab] at hsub
    have hdvd : (k : ℤ) ∣ a - b := Int.dvd_of_emod_eq_zero hsub
    have habs : |a - b| < (k : ℤ) := abs_lt.2 ⟨by omega, by omega⟩
    have := Int.eq_zero_of_abs_lt_dvd hdvd habs
    omega
  have hsub : ((intRange k).map fun o => (o - s) % (k : ℤ)) ⊆ intRange k := by
    intro x hx
    obtain ⟨o, -, rfl⟩ := List.mem_map.1 hx
    rw [mem_intRange]
    exact ⟨Int.emod_nonneg _ hknz, Int.emod_lt_of_pos _ hkpos⟩
  refine (List.subperm_of_subset hnd hsub).perm_of_length_le ?_
  rw [List.length_map]

/-- The re-anchoring core: `_rerank` returns the cyclic shift of its input
ranks (sorted), the new ranks are again a permutation of `0..k-1`, and a
minimal-cost row lands at rank 0. -/
theorem rerank_spec (df : List VisitRow)
    (hnd : (df.map fun r => r.target_id).Nodup)
    (hperm : (df.map fun r => r.target_visit_order).Perm (intRange df.length))
    (hne : df ≠ []) :
    (rerank df).Perm (df.map fun r =>
      { r with target_visit_order :=
          (r.target_visit_order - rerank_start_rank df) % (df.length : ℤ) }) ∧
    ((rerank df).map fun r => r.target_visit_order).Perm (intRange df.length) ∧
    ∃ r ∈ rerank df, r.target_visit_order = 0 ∧ ∀ s ∈ rerank df, r.cost ≤ s.cost := by
  have hk : 0 < df.length := List.length_pos.2 hne
  set shiftRow : VisitRow → VisitRow := fun r =>
    { r with target_visit_order :=
        (r.target_visit_order - rerank_start_rank df) % (df.length : ℤ) } with hshiftRow
  have hsort : (rerank df).Perm (df.map shiftRow) :=
    List.perm_insertionSort _ _
  refine ⟨hsort, ?_, ?_⟩
  · have h1 : ((df.map shiftRow).map fun r => r.target_visit_order) =
        (df.map fun r => r.target_visit_order).map
          fun o => (o - rerank_start_rank df) % (df.length : ℤ) := by
      rw [List.map_map, List.map_map]
      rfl
    have h2 := hperm.map fun o => (o - rerank_start_rank df) % (df.length : ℤ)
    rw [← h1] at h2
    exact ((hsort.map fun r => r.target_visit_order).trans h2).trans
      (shift_perm_intRange df.length hk (rerank_start_rank df))
  · have hne' : (df.map fun s => s.cost) ≠ [] := by
      intro hcon
      exact hne (List.map_eq_nil.1 hcon)
    obtain ⟨r0, hr0mem, hr0c⟩ := List.mem_map.1 (minD_mem _ hne')
    have hfind1 : ((df.find? fun r =>
        decide (r.cost = minD (df.map fun s => s.cost))).isSome) :=
      List.find?_isSome.2 ⟨r0, hr0mem, by simp [hr0c]⟩
    obtain ⟨rmin, hrmin⟩ := Option.isSome_iff_exists.1 hfind1
    have hrminmem := List.mem_of_find?_eq_some hrmin
    have hrminc : rmin.cost = minD (df.map fun s => s.cost) := by
      simpa using List.find?_some hrmin
    have hfind2 : ((df.find? fun r =>
        decide (r.target_id = rmin.target_id)).isSome) :=
      List.find?_isSome.2 ⟨rmin, hrminmem, by simp⟩
    obtain ⟨rstart, hrstart⟩ := Option.isSome_iff_exists.1 hfind2
    have hrstartmem := List.mem_of_find?_eq_some hrstart
    have hrstartid : rstart.target_id = rmin.target_id := by
      simpa using List.find?_some hrstart
    have hrstart_eq : rstart = rmin :=
      List.inj_on_of_nodup_map hnd hrstartmem hrminmem hrstartid
    have hstart : rerank_start_rank df = rmin.target_visit_order := by
      unfold rerank_start_rank
      rw [hrmin]
      simp only [Option.getD_some]
      rw [hrstart, Option.getD_some, hrstart_eq]
    refine ⟨shiftRow rmin, ?_, ?_, ?_⟩
    · rw [hsort.mem_iff]
      exact List.mem_map_of_mem shiftRow hrminmem
    · show (rmin.target_visit_order - rerank_start_rank df) % (df.length : ℤ) = 0
      rw [hstart, sub_self, Int.zero_emod]
    · intro s hs
      rw [hsort.mem_iff] at hs
      obtain ⟨t, htmem, rfl⟩ := List.mem_map.1 hs
      show rmin.cost ≤ t.cost
      rw [hrminc]
      exact minD_le _ _ (List.mem_map_of_mem (fun s => s.cost) htmem)

/-- Writing the waypoint and leg columns into a group leaves ids and
costs untouched, sets the visit orders to the waypoint list, and keeps
the row count. -/
theorem assign_columns_fields : ∀ (rows : List VisitRow) (w : List ℤ) (d : List ℚ),
    w.length = rows.length → d.length = rows.length →
    ((List.zipWith (fun r od =>
        { r with target_visit_order := od.1, distance_to_next_in_km := od.2 / 1000 })
      rows (w.zip d)).map fun r => r.target_visit_order) = w ∧
    ((List.zipWith (fun r od =>
        { r with target_visit_order := od.1, distance_to_next_in_km := od.2 / 1000 })
      rows (w.zip d)).map fun r => r.target_id) = rows.map (fun r => r.target_id) ∧
    ((List.zipWith (fun r od =>
        { r with target_visit_order := od.1, distance_to_next_in_km := od.2 / 1000 })
      rows (w.zip d)).map fun r => r.cost) = rows.map (fun r => r.cost) ∧
    (List.zipWith (fun r od =>
        { r with target_visit_order := od.1, distance_to_next_in_km := od.2 / 1000 })
      rows (w.zip d)).length = rows.length := by
  intro rows
  induction rows with
  | nil =>
    intro w d hw hd
    have hwnil : w = [] := List.length_eq_zero.1 (by simpa using hw)
    subst hwnil
    simp
  | cons r rows ih =>
    intro w d hw hd
    cases w with
    | nil => simp at hw
    | cons o w =>
      cases d with
      | nil => simp at hd
      | cons x d =>
        have hw' : w.length = rows.length := by simpa using hw
        have hd' : d.length = rows.length := by simpa using hd
        obtain ⟨h1, h2, h3, h4⟩ := ih w d hw' hd'
        refine ⟨?_, ?_, ?_, ?_⟩
        · rw [List.zip_cons_cons, List.zipWith_cons_cons, List.map_cons, h1]
        · rw [List.zip_cons_cons, List.zipWith_cons_cons, List.map_cons, h2,
            List.map_cons]
        · rw [List.zip_cons_cons, List.zipWith_cons_cons, List.map_cons, h3,
            List.map_cons]
        · rw [List.zip_cons_cons, List.zipWith_cons_cons, List.length_cons, h4,
            List.length_cons]

/-- C6: in a group of `k` targets whose tour response assigns waypoint
ranks `0..k-1`, the re-anchored orders are again a permutation of
`0..k-1` with no duplicates, each new rank is
`(old rank - start_rank) mod k`, and a row of minimal assignment cost
gets rank 0. -/
theorem visit_order_rerank_permutation (rows : List VisitRow)
    (waypoint_index : List ℤ) (leg_distances : List ℚ)
    (hw : waypoint_index.length = rows.length)
    (hd : leg_distances.length = rows.length)
    (hnd : (rows.map fun r => r.target_id).Nodup)
    (hperm : waypoint_index.Perm (intRange rows.length))
    (hne : rows ≠ []) :
    ((get_visit_order_for_enum rows waypoint_index leg_distances).map
      fun r => r.target_visit_order).Perm (intRange rows.length) ∧
    ((get_visit_order_for_enum rows waypoint_index leg_distances).map
      fun r => r.target_visit_order).Nodup ∧
    (get_visit_order_for_enum rows waypoint_index leg_distances).Perm
      ((List.zipWith (fun r od =>
          { r with target_visit_order := od.1, distance_to_next_in_km := od.2 / 1000 })
        rows (waypoint_index.zip leg_distances)).map fun r =>
          { r with target_visit_order :=
              (r.target_visit_order - rerank_start_rank
                (List.zipWith (fun r od =>
                  { r with target_visit_order := od.1, distance_to_next_in_km := od.2 / 1000 })
                rows (waypoint_index.zip leg_distances))) % ((rows.length : ℕ) : ℤ) }) ∧
    ∃ r ∈ get_visit_order_for_enum rows waypoint_index leg_distances,
      r.target_visit_order = 0 ∧
      ∀ s ∈ get_visit_order_for_enum rows waypoint_index leg_distances, r.cost ≤ s.cost := by
  obtain ⟨hord, htid, hcost, hlen⟩ := assign_columns_fields rows waypoint_index
    leg_distances hw hd
  have hne' : (List.zipWith (fun r od =>
      { r with target_visit_order := od.1, distance_to_next_in_km := od.2 / 1000 })
      rows (waypoint_index.zip leg_distances)) ≠ [] := by
    intro hcon
    apply hne
    have := congrArg List.length hcon
    rw [hlen] at this
    exact List.length_eq_zero.1 this
  have hspec := rerank_spec (List.zipWith (fun r od =>
      { r with target_visit_order := od.1, distance_to_next_in_km := od.2 / 1000 })
      rows (waypoint_index.zip leg_distances))
    (by rw [htid]; exact hnd)
    (by rw [hord, hlen]; exact hperm)
    hne'
  obtain ⟨hshift, hpermres, hmin⟩ := hspec
  rw [hlen] at hshift hpermres
  have hresult : get_visit_order_for_enum rows waypoint_index leg_distances =
      rerank (List.zipWith (fun r od =>
        { r with target_visit_order := od.1, distance_to_next_in_km := od.2 / 1000 })
        rows (waypoint_index.zip leg_distances)) := rfl
  rw [hresult]
  exact ⟨hpermres, (hpermres.nodup_iff).2 (nodup_intRange rows.length), hshift, hmin⟩

/-- C6 witness: a 3-target group with costs `5, 3, 4` and tour ranks
`[2, 0, 1]` — after re-anchoring the orders are a permutation of
`0, 1, 2` with no duplicates and the cost-3 row is ranked first. -/
theorem visit_order_rerank_permutation_witness :
    ((get_visit_order_for_enum [⟨1, 5, 0, 0⟩, ⟨2, 3, 0, 0⟩, ⟨3, 4, 0, 0⟩] [2, 0, 1]
        [100, 200, 300]).map fun r => r.target_visit_order).Perm
      (intRange ([⟨1, 5, 0, 0⟩, ⟨2, 3, 0, 0⟩, ⟨3, 4, 0, 0⟩] : List VisitRow).length) ∧
    ((get_visit_order_for_enum [⟨1, 5, 0, 0⟩, ⟨2, 3, 0, 0⟩, ⟨3, 4, 0, 0⟩] [2, 0, 1]
        [100, 200, 300]).map fun r => r.target_visit_order).Nodup ∧
    (get_visit_order_for_enum [⟨1, 5, 0, 0⟩, ⟨2, 3, 0, 0⟩, ⟨3, 4, 0, 0⟩] [2, 0, 1]
        [100, 200, 300]).Perm
      ((List.zipWith (fun r od =>
          { r with target_visit_order := od.1, distance_to_next_in_km := od.2 / 1000 })
        ([⟨1, 5, 0, 0⟩, ⟨2, 3, 0, 0⟩, ⟨3, 4, 0, 0⟩] : List VisitRow)
        (([2, 0, 1] : List ℤ).zip ([100, 200, 300] : List ℚ))).map fun r =>
          { r with target_visit_order :=
              (r.target_visit_order - rerank_start_rank
                (List.zipWith (fun r od =>
                  { r with target_visit_order := od.1, distance_to_next_in_km := od.2 / 1000 })
                ([⟨1, 5, 0, 0⟩, ⟨2, 3, 0, 0⟩, ⟨3, 4, 0, 0⟩] : List VisitRow)
                (([2, 0, 1] : List ℤ).zip ([100, 200, 300] : List ℚ)))) %
                ((([⟨1, 5, 0, 0⟩, ⟨2, 3, 0, 0⟩, ⟨3, 4, 0, 0⟩] : List VisitRow).length : ℕ) : ℤ) }) ∧
    ∃ r ∈ get_visit_order_for_enum [⟨1, 5, 0, 0⟩, ⟨2, 3, 0, 0⟩, ⟨3, 4, 0, 0⟩] [2, 0, 1]
        [100, 200, 300],
      r.target_visit_order = 0 ∧
      ∀ s ∈ get_visit_order_for_enum [⟨1, 5, 0, 0⟩, ⟨2, 3, 0, 0⟩, ⟨3, 4, 0, 0⟩] [2, 0, 1]
        [100, 200, 300], r.cost ≤ s.cost :=
  visit_order_rerank_permutation [⟨1, 5, 0, 0⟩, ⟨2, 3, 0, 0⟩, ⟨3, 4, 0, 0⟩] [2, 0, 1]
    [100, 200, 300] rfl rfl (by decide) (by decide) (by decide)

/-- Membership in a numpy index slice `arange(n)[a : a + b]`. -/
theorem mem_indexSlice {n a b m : ℕ} :
    m ∈ indexSlice n a b ↔ a ≤ m ∧ m < a + b ∧ m < n := by
  unfold indexSlice
  rw [List.mem_iff_getElem]
  have hlen : (((List.range n).drop a).take b).length = min b (n - a) := by
    rw [List.length_take, List.length_drop, List.length_range]
  constructor
  · rintro ⟨i, hi, rfl⟩
    rw [hlen] at hi
    rw [List.getElem_take, List.getElem_drop, List.getElem_range]
    omega
  · rintro ⟨h1, h2, h3⟩
    refine ⟨m - a, ?_, ?_⟩
    · rw [hlen]
      omega
    · rw [List.getElem_take, List.getElem_drop, List.getElem_range]
      omega

/-- Each grid index lies in exactly one chunk of the ceil-division tiling. -/
theorem countP_mem_slice (n B : ℕ) (hB : 0 < B) (i : ℕ) (hi : i < n) :
    ((List.range ((n + (B - 1)) / B)).countP
      fun c => decide (i ∈ indexSlice n (c * B) B)) = 1 := by
  have hmem : ∀ c, i ∈ indexSlice n (c * B) B ↔ c = i / B := by
    intro c
    rw [mem_indexSlice]
    constructor
    · rintro ⟨h1, h2, -⟩
      have hup : i < (c + 1) * B := by
        rw [Nat.succ_mul]
        omega
      exact (Nat.div_eq_of_lt_le h1 hup).symm
    · rintro rfl
      refine ⟨Nat.div_mul_le_self i B, ?_, hi⟩
      have hmod := Nat.mod_lt i hB
      calc i = B * (i / B) + i % B := (Nat.div_add_mod i B).symm
        _ < B * (i / B) + B := Nat.add_lt_add_left hmod _
        _ = i / B * B + B := by ring
  have hcongr : ((List.range ((n + (B - 1)) / B)).countP
      fun c => decide (i ∈ indexSlice n (c * B) B)) =
      ((List.range ((n + (B - 1)) / B)).countP fun c => c == i / B) := by
    apply List.countP_congr
    intro c _
    simp only [decide_eq_true_eq, beq_iff_eq, hmem c]
  rw [hcongr]
  have hcount : ((List.range ((n + (B - 1)) / B)).countP fun c => c == i / B) =
      List.count (i / B) (List.range ((n + (B - 1)) / B)) := rfl
  rw [hcount]
  apply List.count_eq_one_of_mem (List.nodup_range _)
  rw [List.mem_range]
  have hn1 : n + (B - 1) = (n - 1) + B := by omega
  calc i / B ≤ (n - 1) / B := Nat.div_le_div_right (by omega)
    _ < (n - 1) / B + 1 := Nat.lt_succ_self _
    _ = ((n - 1) + B) / B := (Nat.add_div_right _ hB).symm
    _ = (n + (B - 1)) / B := by rw [hn1]

/-- Counting over a product list splits into a product of counts. -/
theorem countP_product {α β : Type} (p : α → Bool) (q : β → Bool) :
    ∀ (l₁ : List α) (l₂ : List β),
      ((l₁.flatMap fun a => l₂.map fun b => (a, b)).countP fun ab => p ab.1 && q ab.2) =
        l₁.countP p * l₂.countP q := by
  intro l₁
  induction l₁ with
  | nil =>
    intro l₂
    simp
  | cons a t ih =>
    intro l₂
    rw [List.flatMap_cons, List.countP_append, List.countP_map, ih, List.countP_cons]
    have hcomp : ((fun ab : α × β => p ab.1 && q ab.2) ∘ fun b => (a, b)) =
        fun b => p a && q b := rfl
    rw [hcomp]
    by_cases hpa : p a = true
    · have hq : (List.countP (fun b => p a && q b) l₂) = List.countP q l₂ := by
        apply List.countP_congr
        intro b _
        simp [hpa]
      rw [hq, if_pos hpa]
      ring
    · have hpf : p a = false := by
        revert hpa
        cases p a <;> simp
      have hq : (List.countP (fun b => p a && q b) l₂) = 0 := by
        have hz : (fun b => p a && q b) = fun _ : β => false := by
          funext b
          rw [hpf, Bool.false_and]
        rw [hz]
        exact congrFun List.countP_false l₂
      rw [hq, if_neg hpa]
      ring

/-- C8: the generated request blocks cover every (origin, destination)
pair of the grid exactly once, and each block respects the limits —
at most `MAX_ORIG = 4` origins, `MAX_DEST = 25` destinations and
`MAX_ELEMENTS_PER_REQUEST = 100` elements. -/
theorem google_request_blocks_partition (n_orig n_dest : ℕ)
    (ho : 1 ≤ n_orig) (hd : 1 ≤ n_dest) :
    (∀ i < n_orig, ∀ j < n_dest,
      ((generate_google_enum_target_request_idx n_orig n_dest).countP
        fun b => decide (i ∈ b.1) && decide (j ∈ b.2)) = 1) ∧
    (∀ b ∈ generate_google_enum_target_request_idx n_orig n_dest,
      b.1.length ≤ MAX_ORIG ∧ b.2.length ≤ MAX_DEST ∧
      b.1.length * b.2.length ≤ MAX_ELEMENTS_PER_REQUEST) := by
  constructor
  · intro i hi j hj
    unfold generate_google_enum_target_request_idx
    rw [countP_product (fun oc => decide (i ∈ oc)) (fun dc => decide (j ∈ dc))]
    rw [List.countP_map, List.countP_map]
    have hco : ((fun oc => decide (i ∈ oc)) ∘ fun c =>
        indexSlice n_orig (c * MAX_ORIG) MAX_ORIG) =
        fun c => decide (i ∈ indexSlice n_orig (c * MAX_ORIG) MAX_ORIG) := rfl
    have hcd : ((fun dc => decide (j ∈ dc)) ∘ fun c =>
        indexSlice n_dest (c * MAX_DEST) MAX_DEST) =
        fun c => decide (j ∈ indexSlice n_dest (c * MAX_DEST) MAX_DEST) := rfl
    rw [hco, hcd, countP_mem_slice n_orig MAX_ORIG (by decide) i hi,
      countP_mem_slice n_dest MAX_DEST (by decide) j hj]
  · intro b hb
    unfold generate_google_enum_target_request_idx at hb
    simp only [List.mem_flatMap, List.mem_map] at hb
    obtain ⟨oc, ⟨c, hc, rfl⟩, dc, ⟨c', hc', rfl⟩, rfl⟩ := hb
    have hlo : (indexSlice n_orig (c * MAX_ORIG) MAX_ORIG).length ≤ MAX_ORIG := by
      unfold indexSlice
      rw [List.length_take]
      exact min_le_left _ _
    have hld : (indexSlice n_dest (c' * MAX_DEST) MAX_DEST).length ≤ MAX_DEST := by
      unfold indexSlice
      rw [List.length_take]
      exact min_le_left _ _
    refine ⟨hlo, hld, ?_⟩
    have hprod : MAX_ORIG * MAX_DEST = MAX_ELEMENTS_PER_REQUEST := rfl
    rw [← hprod]
    exact Nat.mul_le_mul hlo hld

/-- C8 witness: the spec scenario of 30 enumerators (origins) and 50
targets (destinations) — every grid cell is covered by exactly one block
and every block respects the request limits. -/
theorem google_request_blocks_partition_witness :
    (∀ i < 30, ∀ j < 50,
      ((generate_google_enum_target_request_idx 30 50).countP
        fun b => decide (i ∈ b.1) && decide (j ∈ b.2)) = 1) ∧
    (∀ b ∈ generate_google_enum_target_request_idx 30 50,
      b.1.length ≤ MAX_ORIG ∧ b.2.length ≤ MAX_DEST ∧
      b.1.length * b.2.length ≤ MAX_ELEMENTS_PER_REQUEST) :=
  google_request_blocks_partition 30 50 (by decide) (by decide)

end SurveyScout
